import Mathlib

/-!
Verification of the osbuild-composer job-queue and compose-store core.

This development shallowly embeds the Go sources of the repository
(`internal/jobqueue/fsjobqueue`, `internal/store`, `internal/compose`,
`internal/common`, `internal/worker`) into Lean and proves the frozen
specification claims about them.

Modelling conventions:
* Go maps are modelled as association lists (`alookup` / `aset` / `adelete`).
  Reading a missing key yields the Go zero value via `Option.getD`.
* Go's `time.Time` is modelled as a `Nat` tick supplied by the caller
  (`time.Now()` becomes an explicit `now` parameter); the zero time is `0`.
* `uuid.UUID` (a `[16]byte`) is modelled as a `List Nat` of the bytes;
  `uuid.Nil` is sixteen zero bytes.
* JSON payloads are modelled by the inductive `Json`; a Go value passed as
  `interface{}` that may fail `json.Marshal` is modelled by `GoValue`.
* Filesystem writes of the `jsondb` package are modelled as updates of the
  in-state association list; file-system errors are out of scope (the store
  treats them as fatal panics).
-/

namespace Osbuild

/-- Association-list lookup, modelling a read of a Go `map`. -/
def alookup {α : Type _} : List (String × α) → String → Option α
  | [], _ => none
  | (k, v) :: rest, key => if k = key then some v else alookup rest key

/-- Association-list lookup keyed by a list (used for UUID keys). -/
def ulookup {α : Type _} : List (List Nat × α) → List Nat → Option α
  | [], _ => none
  | (k, v) :: rest, key => if k = key then some v else ulookup rest key

/-- Association-list update, modelling a write `m[k] = v` of a Go `map`:
replace the binding when present, append it otherwise. -/
def aset {α : Type _} : List (String × α) → String → α → List (String × α)
  | [], key, v => [(key, v)]
  | (k, w) :: rest, key, v =>
    if k = key then (k, v) :: rest else (k, w) :: aset rest key v

/-- Association-list update keyed by a list (used for UUID keys). -/
def uset {α : Type _} : List (List Nat × α) → List Nat → α → List (List Nat × α)
  | [], key, v => [(key, v)]
  | (k, w) :: rest, key, v =>
    if k = key then (k, v) :: rest else (k, w) :: uset rest key v

/-- Association-list removal, modelling Go's `delete(m, k)`. -/
def adelete {α : Type _} : List (String × α) → String → List (String × α)
  | [], _ => []
  | (k, v) :: rest, key =>
    if k = key then adelete rest key else (k, v) :: adelete rest key

/-- JSON documents, the model of Go's (well-formed) JSON values.  Deep JSON
equality is structural equality of this type. -/
inductive Json where
  | null : Json
  | bool (b : Bool) : Json
  | num (n : Int) : Json
  | str (s : String) : Json
  | arr (elems : List Json) : Json
  | obj (fields : List (String × Json)) : Json

/-- A Go value handed to `json.Marshal` as `interface{}`: either a value with
a JSON encoding, or a non-serializable value such as a `chan` (the test
suite's `make(chan string)`). -/
inductive GoValue where
  | json (j : Json) : GoValue
  | goChan : GoValue

/-- `json.Marshal`: succeeds exactly on serializable values. -/
def jsonMarshal : GoValue → Option Json
  | .json j => some j
  | .goChan => none

/-- A `uuid.UUID` is a `[16]byte`; we model it as the list of its bytes. -/
abbrev UUID := List Nat

/-- `uuid.Nil`, the zero UUID. -/
def uuidNil : UUID := List.replicate 16 0

/-- The comparison closure passed to `sort.Slice` in `uniqueUUIDList`
(fsjobqueue.go): it scans the 16 bytes and returns `true` as soon as some
byte of `x` is smaller than the corresponding byte of `y` — even when an
earlier byte of `x` was larger.  (This is not a lexicographic comparison.) -/
def goUUIDLess : UUID → UUID → Bool
  | x :: xs, y :: ys => if x < y then true else goUUIDLess xs ys
  | _, _ => false

/-- Bytewise lexicographic `≤` on UUIDs.  This is the order the spec's words
"unique sorted set" / "ascending bytewise" describe; it is stated here only
to compare the code's behaviour against the spec. -/
def uuidByteLE : UUID → UUID → Bool
  | [], _ => true
  | _ :: _, [] => false
  | x :: xs, y :: ys => if x < y then true else if y < x then false else uuidByteLE xs ys

/-- First-occurrence deduplication: the contents of the Go `map[uuid.UUID]bool`
built by `uniqueUUIDList`, iterated in one admissible order (Go randomizes
map iteration; we fix insertion order as the modelled iteration order). -/
def dedupFO {α : Type _} [DecidableEq α] : List α → List α
  | [] => []
  | x :: xs => if x ∈ xs then dedupFO xs else x :: dedupFO xs

/-- One step of Go's `insertionSort`: insert `x` into the prefix `l` by
swapping it leftwards while `less x prev` holds, scanning from the right.
The returned flag records whether `x` bubbled all the way to the front,
so the model is exact for arbitrary (even non-transitive) comparators. -/
def goInsert {α : Type _} (less : α → α → Bool) : List α → α → List α × Bool
  | [], x => ([x], true)
  | y :: ys, x =>
    let r := goInsert less ys x
    if r.2 && less x y then (x :: y :: ys, true) else (y :: r.1, false)

/-- Go's `insertionSort` as run by `sort.Slice`.  For slices shorter than 12
elements `sort.Slice` performs a shell pass with gap 6 followed by this
insertion sort; for slices of at most 6 elements the shell pass moves
nothing, so this function is exact there.  For longer inputs it implements
the documented `sort.Slice` contract (a permutation of the input ordered by
`less` whenever `less` is a strict weak ordering). -/
def goSortSlice {α : Type _} (less : α → α → Bool) (l : List α) : List α :=
  l.foldl (fun acc x => (goInsert less acc x).1) []

/-- `uniqueUUIDList` (fsjobqueue.go): collapse `ids` through a map and sort
the result with the `goUUIDLess` closure. -/
def uniqueUUIDList (ids : List UUID) : List UUID :=
  goSortSlice goUUIDLess (dedupFO ids)

/-! ## Job queue (`internal/jobqueue/fsjobqueue/fsjobqueue.go`) -/

/-- Modelled from the spec: the job-status enum of the `jobqueue` interface
package (only its implementation `fsjobqueue` is among the sources);
`status ∈ {Pending, Running, Finished}`. -/
inductive JobStatus where
  | pending : JobStatus
  | running : JobStatus
  | finished : JobStatus
deriving DecidableEq, Repr

/-- Errors surfaced by the queue: `jobqueue.ErrNotExist`,
`jobqueue.ErrNotRunning`, and the wrapped `json.Marshal` failure of
`Enqueue`. -/
inductive QueueError where
  | errNotExist : QueueError
  | errNotRunning : QueueError
  | marshalError : QueueError
deriving DecidableEq, Repr

/-- The on-disk job document (struct `job` in fsjobqueue.go).  `Args` and
`Result` are raw JSON; absent timestamps are the zero time `0`. -/
structure Job where
  id : UUID
  jobType : String
  args : Json
  dependencies : List UUID
  result : Option Json
  status : JobStatus
  queuedAt : Nat
  startedAt : Nat
  finishedAt : Nat

/-- The queue state: the `jsondb` directory (one document per job keyed by
UUID), the per-type pending channels (FIFO: send appends, receive pops the
head), and the reverse-dependency index. -/
structure FSJobQueue where
  jobs : List (UUID × Job)
  pending : List (String × List UUID)
  dependants : List (UUID × List UUID)

/-- `countFinishedJobs`: read every job in `ids` and count the finished
ones; reading a missing job fails (`ErrNotExist`), modelled as `none`. -/
def countFinishedJobs (q : FSJobQueue) : List UUID → Option Nat
  | [] => some 0
  | id :: rest =>
    match ulookup q.jobs id with
    | none => none
    | some j =>
      (countFinishedJobs q rest).map (fun n => if j.status = .finished then n + 1 else n)

/-- `fsJobQueue.Enqueue`.  `uuid.New()` and `time.Now()` are modelled by the
explicit `fid` and `now` arguments.  Returns the Go result pair
`(id, error)` together with the queue state after the call; every error
path returns `uuid.Nil` and the unchanged state, mirroring the source's
order of operations (marshal, dependency check, disk write, then the
in-memory channel or reverse-dependency update). -/
def enqueue (q : FSJobQueue) (jobType : String) (args : GoValue)
    (dependencies : List UUID) (fid : UUID) (now : Nat) :
    (UUID × Option QueueError) × FSJobQueue :=
  let deps := uniqueUUIDList dependencies
  match jsonMarshal args with
  | none => ((uuidNil, some .marshalError), q)
  | some argsJson =>
    match countFinishedJobs q deps with
    | none => ((uuidNil, some .errNotExist), q)
    | some finished =>
      let j : Job :=
        { id := fid, jobType := jobType, args := argsJson, dependencies := deps,
          result := none, status := .pending, queuedAt := now, startedAt := 0,
          finishedAt := 0 }
      let q1 : FSJobQueue := { q with jobs := uset q.jobs fid j }
      if finished = deps.length then
        ((fid, none),
          { q1 with
            pending := aset q1.pending jobType
              (((alookup q1.pending jobType).getD []) ++ [fid]) })
      else
        ((fid, none),
          { q1 with
            dependants := deps.foldl
              (fun d depId => uset d depId (((ulookup d depId).getD []) ++ [fid]))
              q1.dependants })

/-- The `reflect.Select` step of `Dequeue` restricted to ready channels:
return the first job type in `jobTypes` whose pending channel is non-empty,
with the received id and the rest of that channel.  (Selection among several
ready channels is non-deterministic in Go; picking the first ready type is
one admissible schedule.  A missing channel is created empty by
`pendingChannel`.) -/
def findAvailable (pending : List (String × List UUID)) :
    List String → Option (String × UUID × List UUID)
  | [] => none
  | t :: ts =>
    match (alookup pending t).getD [] with
    | [] => findAvailable pending ts
    | id :: rest => some (t, id, rest)

/-- `fsJobQueue.Dequeue` on the path where the context is live and a job of
one of the requested types is available (`none` models blocking: no ready
channel).  The receive removes the id from its channel before the job
document is read; unmarshalling into a `Json`-shaped out-argument always
succeeds.  Returns `(id, error, out)` plus the new state. -/
def dequeue (q : FSJobQueue) (jobTypes : List String) (now : Nat) :
    Option ((UUID × Option QueueError × Option Json) × FSJobQueue) :=
  match findAvailable q.pending jobTypes with
  | none => none
  | some (t, id, rest) =>
    let q1 : FSJobQueue := { q with pending := aset q.pending t rest }
    match ulookup q1.jobs id with
    | none => some ((uuidNil, some .errNotExist, none), q1)
    | some j =>
      let j' : Job := { j with status := .running, startedAt := now }
      some ((j.id, none, some j.args), { q1 with jobs := uset q1.jobs id j' })

/-- `fsJobQueue.JobStatus`: read the job; if it is finished, also surface
its raw result (the caller unmarshals it). -/
def fsJobStatus (q : FSJobQueue) (id : UUID) :
    Option (JobStatus × Option Json × Nat × Nat × Nat) :=
  match ulookup q.jobs id with
  | none => none
  | some j =>
    some (j.status, if j.status = .finished then j.result else none,
      j.queuedAt, j.startedAt, j.finishedAt)

/-! ## Shared state enums (`internal/common/states.go`) and the worker
façade's state derivation (`internal/worker/server.go`) -/

/-- `common.ImageBuildState` (IBWaiting, IBRunning, IBFinished, IBFailed). -/
inductive ImageBuildState where
  | waiting : ImageBuildState
  | running : ImageBuildState
  | finished : ImageBuildState
  | failed : ImageBuildState
deriving DecidableEq, Repr

/-- `common.ComposeState` (CWaiting, CRunning, CFinished, CFailed). -/
inductive ComposeState where
  | waiting : ComposeState
  | running : ComposeState
  | finished : ComposeState
  | failed : ComposeState
deriving DecidableEq, Repr

/-- Modelled from the spec: `common.ComposeResult` (defined in the
`internal/common` package, which is not among the sources) carries the
worker's outcome; the façade and store consult only its `Success` flag. -/
structure ComposeResult where
  success : Bool
deriving DecidableEq, Repr

/-- `composeStateFromJobStatus` (server.go).  The Go function receives
`output *common.ComposeResult`; the `nil` pointer is modelled as `none`,
and dereferencing it in the `JobFinished` branch (a runtime panic in Go)
is modelled as `none` in the result. -/
def composeStateFromJobStatus (status : JobStatus) (output : Option ComposeResult) :
    Option ComposeState :=
  match status with
  | .pending => some .waiting
  | .running => some .running
  | .finished =>
    match output with
    | none => none
    | some r => some (if r.success then .finished else .failed)

/-- `worker.OSBuildJobResult`: the envelope the façade stores as a job
result; `OSBuildOutput` is a nullable pointer field. -/
structure OSBuildJobResult where
  osbuildOutput : Option ComposeResult

/-- JSON encoding of `OSBuildJobResult` (field `osbuild_output,omitempty`;
`ComposeResult.Success` marshals under `success`). -/
def encodeOSBuildJobResult : OSBuildJobResult → Json
  | ⟨none⟩ => .obj []
  | ⟨some r⟩ => .obj [("osbuild_output", .obj [("success", .bool r.success)])]

/-- JSON decoding of `OSBuildJobResult` from a raw result document:
a missing `osbuild_output` field leaves the pointer `nil`, mirroring
`encoding/json` semantics for absent fields. -/
def decodeOSBuildJobResult (j : Json) : OSBuildJobResult :=
  match j with
  | .obj fields =>
    match alookup fields "osbuild_output" with
    | some (.obj inner) =>
      match alookup inner "success" with
      | some (.bool b) => ⟨some ⟨b⟩⟩
      | _ => ⟨some ⟨false⟩⟩
    | _ => ⟨none⟩
  | _ => ⟨none⟩

/-- `worker.Server.JobStatus`: query the queue, unmarshal the result of a
finished job into an `OSBuildJobResult`, and derive the compose-level state
with `composeStateFromJobStatus`.  `none` models both queue errors and the
nil-dereference panic inside the derivation. -/
def serverJobStatus (q : FSJobQueue) (id : UUID) :
    Option (ComposeState × Nat × Nat × Nat) :=
  match fsJobStatus q id with
  | none => none
  | some (status, rawResult, queued, started, finished) =>
    let res : OSBuildJobResult :=
      match rawResult with
      | none => ⟨none⟩
      | some rj => decodeOSBuildJobResult rj
    match composeStateFromJobStatus status res.osbuildOutput with
    | none => none
    | some st => some (st, queued, started, finished)

/-! ## Semantic versions (`github.com/coreos/go-semver/semver`)

The store's crash-recovery sort compares blueprint versions with the
coreos go-semver library (`NewVersion`, `LessThan`).  The library is an
external dependency of the repository; it is embedded here following its
source: `Set` splits off `+metadata` then `-prerelease`, `SplitN`s the
rest on `.` into exactly three `ParseInt` components; `LessThan` compares
`[Major, Minor, Patch]` lexicographically and breaks ties on the
pre-release (absent > present; dot-separated segments compared
numerically when both parse as integers, numeric below non-numeric,
otherwise bytewise as strings). -/

/-- Decimal digit run evaluator (helper for `strconv.ParseInt`). -/
def digitsValAux (acc : Nat) : List Char → Option Nat
  | [] => some acc
  | c :: cs => if c.isDigit then digitsValAux (acc * 10 + (c.toNat - '0'.toNat)) cs else none

/-- Value of a non-empty all-digit run. -/
def digitsVal : List Char → Option Nat
  | [] => none
  | l => digitsValAux 0 l

/-- `strconv.ParseInt(s, 10, 64)` (also `strconv.Atoi` on 64-bit hosts):
an optional sign followed by a non-empty digit run; values outside the
int64 range are errors. -/
def goParseInt64 (s : String) : Option Int :=
  match s.data with
  | '+' :: rest => (digitsVal rest).bind
      (fun n => if n ≤ 9223372036854775807 then some (n : Int) else none)
  | '-' :: rest => (digitsVal rest).bind
      (fun n => if n ≤ 9223372036854775808 then some (-(n : Int)) else none)
  | l => (digitsVal l).bind
      (fun n => if n ≤ 9223372036854775807 then some (n : Int) else none)

/-- Split a character list at the first occurrence of `c`
(`strings.SplitN(s, c, 2)` when `c` occurs). -/
def splitFirstChar (c : Char) : List Char → Option (List Char × List Char)
  | [] => none
  | x :: xs =>
    if x = c then some ([], xs)
    else (splitFirstChar c xs).map (fun p => (x :: p.1, p.2))

/-- semver's `splitOff`: cut the string at the first `c`; the first
component is the remaining version, the second the split-off value
(empty when `c` does not occur). -/
def splitOff (s : List Char) (c : Char) : List Char × List Char :=
  match splitFirstChar c s with
  | none => (s, [])
  | some p => p

/-- `strings.SplitN(s, ".", 3)`. -/
def splitN3Dots (l : List Char) : List (List Char) :=
  match splitFirstChar '.' l with
  | none => [l]
  | some (a, rest) =>
    match splitFirstChar '.' rest with
    | none => [a, rest]
    | some (b, rest2) => [a, b, rest2]

/-- `semver.Version`. -/
structure SemVer where
  major : Int
  minor : Int
  patch : Int
  preRelease : String
  metadata : String
deriving DecidableEq, Repr

/-- `semver.New("0.0.0")`, the fallback for unparseable versions. -/
def semverZero : SemVer := ⟨0, 0, 0, "", ""⟩

/-- `semver.NewVersion` / `Version.Set`. -/
def parseSemVer (s : String) : Option SemVer :=
  let m := splitOff s.data '+'
  let p := splitOff m.1 '-'
  match splitN3Dots p.1 with
  | [a, b, c] =>
    match goParseInt64 (String.mk a), goParseInt64 (String.mk b),
        goParseInt64 (String.mk c) with
    | some ma, some mi, some pa =>
      some ⟨ma, mi, pa, String.mk p.2, String.mk m.2⟩
    | _, _, _ => none
  | _ => none

/-- Go string comparison (`>` / `<` on strings) as a three-way compare. -/
def strCmp (a b : String) : Int := if a > b then 1 else if a < b then -1 else 0

/-- Three-way compare of two pre-release segments
(`recursivePreReleaseCompare`, single segment step): numeric identifiers
compare below non-numeric ones, two numerics by value, otherwise by
string order. -/
def segCmp (a b : String) : Int :=
  match goParseInt64 a, goParseInt64 b with
  | some ai, some bi => if ai > bi then 1 else if ai < bi then -1 else 0
  | some _, none => -1
  | none, some _ => 1
  | none, none => strCmp a b

/-- `recursivePreReleaseCompare` over the dot-separated segment lists:
running out of segments first compares lower. -/
def preSegsCmp : List String → List String → Int
  | [], [] => 0
  | [], _ :: _ => -1
  | _ :: _, [] => 1
  | a :: as, b :: bs => if segCmp a b = 0 then preSegsCmp as bs else segCmp a b

/-- `preReleaseCompare` on the two pre-release strings: an absent
pre-release has higher precedence. -/
def preCmpStr (a b : String) : Int :=
  if a = "" ∧ b = "" then 0
  else if a = "" then 1
  else if b = "" then -1
  else preSegsCmp (a.splitOn ".") (b.splitOn ".")

/-- `preReleaseCompare` (consults only the `PreRelease` fields). -/
def preReleaseCmp (v w : SemVer) : Int := preCmpStr v.preRelease w.preRelease

/-- One step of `recursiveCompare`: `if a > b { 1 } else if a < b { -1 }`
then fall through. -/
def intCmp3 (x y : Int) : Int := if x > y then 1 else if x < y then -1 else 0

/-- `recursiveCompare(versionA.Slice(), versionB.Slice())`:
lexicographic on `[Major, Minor, Patch]` (the recursion unrolled over the
three components). -/
def mainCmp (v w : SemVer) : Int :=
  if intCmp3 v.major w.major = 0 then
    if intCmp3 v.minor w.minor = 0 then intCmp3 v.patch w.patch
    else intCmp3 v.minor w.minor
  else intCmp3 v.major w.major

/-- The full three-way comparison behind `Version.LessThan`. -/
def semverCmp (v w : SemVer) : Int :=
  if mainCmp v w = 0 then preReleaseCmp v w else mainCmp v w

/-- `semver.Version.LessThan`. -/
def semverLessThan (v w : SemVer) : Bool := semverCmp v w = -1

/-! ### The comparators above are lawful three-way comparisons -/

/-- A lawful three-way comparator: values in `{-1,0,1}`, antisymmetric,
with transitive strict part and ties that are congruences. -/
def CmpLawful {α : Type _} (f : α → α → Int) : Prop :=
  (∀ a b, f a b = -1 ∨ f a b = 0 ∨ f a b = 1) ∧
  (∀ a b, f a b = -(f b a)) ∧
  (∀ a b c, f a b = -1 → f b c = -1 → f a c = -1) ∧
  (∀ a b, f a b = 0 → ∀ c, f a c = f b c)

/-! ## Blueprints, composes and the store
(`internal/blueprint`, `internal/compose/compose.go`, `internal/store/store.go`) -/

/-- Modelled from the spec: `blueprint.Blueprint` (package not among the
sources) — a name, a semantic version string, and an opaque body. -/
structure Blueprint where
  name : String
  version : String
  body : Json

/-- The Go zero value of `blueprint.Blueprint`. -/
def Blueprint.goZero : Blueprint := ⟨"", "", .null⟩

/-- Modelled from the spec: `blueprint.Change` — commit hash, message,
ISO-8601 timestamp string, blueprint snapshot, and an optional revision
(`*int`). -/
structure Change where
  commit : String
  message : String
  timestamp : String
  blueprint : Blueprint
  revision : Option Int

/-- The Go zero value of `blueprint.Change` (what indexing a map at a
missing commit yields). -/
def Change.goZero : Change := ⟨"", "", "", Blueprint.goZero, none⟩

/-- Modelled from the spec: `target.Target` — a delivery endpoint whose
`Status` is an `ImageBuildState`; its other fields are opaque here. -/
structure Target where
  targetName : String
  status : ImageBuildState

/-- `compose.ImageBuild`. -/
structure ImageBuild where
  idNum : Int
  manifest : Option Json
  targets : List Target
  jobCreated : Nat
  jobStarted : Nat
  jobFinished : Nat
  size : Nat
  jobId : UUID
  queueStatus : ImageBuildState

/-- `compose.Compose`. -/
structure Compose where
  blueprint : Option Blueprint
  imageBuilds : List ImageBuild

/-- `compose.StateTransitionError`. -/
structure StateTransitionError where
  message : String

/-- `Compose.UpdateState` (compose.go).  The Go method mutates the compose
and returns an error; we return the (possibly unchanged) compose next to
the optional error.  The outer `Option` is `none` when `imageBuildId` is
out of range in a branch that indexes the slice (a Go index panic); the
`IBWaiting` branch returns its error before any indexing. -/
def Compose.updateState (c : Compose) (imageBuildId : Nat)
    (newState : ImageBuildState) : Option (Option StateTransitionError × Compose) :=
  match newState with
  | .waiting => some (some ⟨"image build cannot be moved into waiting state"⟩, c)
  | .running =>
    match c.imageBuilds.get? imageBuildId with
    | none => none
    | some ib =>
      if ib.queueStatus = .waiting ∨ ib.queueStatus = .running then
        let ib2 := { ib with queueStatus := newState }
        some (none, { c with imageBuilds := c.imageBuilds.set imageBuildId ib2 })
      else
        some (some ⟨"only waiting image build can be transitioned into running state"⟩, c)
  | .finished =>
    match c.imageBuilds.get? imageBuildId with
    | none => none
    | some ib =>
      if ib.queueStatus = .running then
        let ib2 := { ib with
                     queueStatus := newState,
                     targets := ib.targets.map (fun t => { t with status := newState }) }
        some (none, { c with imageBuilds := c.imageBuilds.set imageBuildId ib2 })
      else
        some (some ⟨"only running image build can be transitioned into finished or failed state"⟩, c)
  | .failed =>
    match c.imageBuilds.get? imageBuildId with
    | none => none
    | some ib =>
      if ib.queueStatus = .running then
        let ib2 := { ib with
                     queueStatus := newState,
                     targets := ib.targets.map (fun t => { t with status := newState }) }
        some (none, { c with imageBuilds := c.imageBuilds.set imageBuildId ib2 })
      else
        some (some ⟨"only running image build can be transitioned into finished or failed state"⟩, c)

/-- `store.SourceConfig`. -/
structure SourceConfig where
  sourceName : String
  sourceType : String
  url : String
  checkGPG : Bool
  checkSSL : Bool
  system : Bool

/-- The typed errors of the store (store.go): `NotFoundError`,
`NotPendingError`, `InvalidRequestError`, `NoLocalTargetError`, plus the
plain `errors.New` strings some methods return. -/
inductive StoreError where
  | notFound (message : String) : StoreError
  | notPending (message : String) : StoreError
  | invalidRequest (message : String) : StoreError
  | noLocalTarget (message : String) : StoreError
  | plain (message : String) : StoreError

/-- `store.Store`: the serialized state document.  The runtime fields
(lock, pending channel, state dir, db handle) carry no claim-relevant
state; persistence is the document itself. -/
structure Store where
  blueprints : List (String × Blueprint)
  workspace : List (String × Blueprint)
  composes : List (UUID × Compose)
  sources : List (String × SourceConfig)
  blueprintsChanges : List (String × List (String × Change))
  blueprintsCommits : List (String × List String)

/-- The semantic version of a change's blueprint snapshot, with parse
failures falling back to `0.0.0` (store.go, `New`). -/
def changeVersion (c : Change) : SemVer :=
  (parseSemVer c.blueprint.version).getD semverZero

/-- The comparison closure of the commit-list reconstruction in `New`
(store.go): ascending by timestamp string, ties broken by
`semver.LessThan` on the snapshots' versions. -/
def changeLess (c1 c2 : Change) : Bool :=
  if c1.timestamp = c2.timestamp then
    semverLessThan (changeVersion c1) (changeVersion c2)
  else
    decide (c1.timestamp < c2.timestamp)

/-- Rebuild one blueprint's commit list from its changes map: sort the
changes with `sort.Slice` under `changeLess` and keep the commit hashes
(store.go, `New`).  The map iteration order is modelled as the
association-list order. -/
def rebuildCommits (chmap : List (String × Change)) : List String :=
  (goSortSlice changeLess (chmap.map Prod.snd)).map (fun c => c.commit)

/-- The `for name := range s.BlueprintsChanges` normalization loop of `New`:
every name whose changes map and ordered commit list have different
lengths gets its commit list rebuilt. -/
def normalizeBlueprintsCommits (changes : List (String × List (String × Change)))
    (commits : List (String × List String)) : List (String × List String) :=
  changes.foldl
    (fun acc entry =>
      if entry.2.length ≠ ((alookup acc entry.1).getD []).length then
        aset acc entry.1 (rebuildCommits entry.2)
      else acc)
    commits

/-- `store.New` restricted to its state normalization (the directory and
jsondb plumbing are I/O): panic — modelled as `none` — when a loaded
compose has no image builds; force `Waiting`/`Running` builds to `Failed`;
reconstruct out-of-sync commit lists. -/
def storeNew (s : Store) : Option Store :=
  if s.composes.any (fun p => p.2.imageBuilds.isEmpty) then none
  else
    some
      { s with
        composes := s.composes.map (fun p =>
          (p.1, { p.2 with imageBuilds := p.2.imageBuilds.map (fun ib =>
            match ib.queueStatus with
            | .running => { ib with queueStatus := .failed }
            | .waiting => { ib with queueStatus := .failed }
            | _ => ib) })),
        blueprintsCommits :=
          normalizeBlueprintsCommits s.blueprintsChanges s.blueprintsCommits }

/-- `Store.GetBlueprintChange`. -/
def Store.getBlueprintChange (s : Store) (name commit : String) :
    Except StoreError Change :=
  match alookup s.blueprintsChanges name with
  | none => .error (.plain "Unknown blueprint")
  | some chmap =>
    match alookup chmap commit with
    | none => .error (.plain "Unknown commit")
    | some change => .ok change

/-- `Store.GetBlueprintChanges`: the changes in commit-list order, oldest
first (a commit missing from the changes map yields the zero `Change`). -/
def Store.getBlueprintChanges (s : Store) (name : String) : List Change :=
  ((alookup s.blueprintsCommits name).getD []).map
    (fun commit =>
      (alookup ((alookup s.blueprintsChanges name).getD []) commit).getD Change.goZero)

/-- The revision-scan loop of `TagBlueprint`, iterating the commit list
newest to oldest (the argument is the reversed commit list): stop at the
first commit whose revision is positive; the `Change` returned is the last
one read by the loop (the `change` variable keeps its final assignment). -/
def tagScan (chmap : List (String × Change)) : List String → Int × Change
  | [] => (0, Change.goZero)
  | c :: rest =>
    let ch := (alookup chmap c).getD Change.goZero
    -- Go's break condition `change.Revision != nil && *change.Revision > revision`
    -- (with `revision` still 0) is equivalent to `0 < ch.revision.getD 0`.
    if 0 < ch.revision.getD 0 then (ch.revision.getD 0, ch)
    else if rest.isEmpty then (0, ch)
    else tagScan chmap rest

/-- `Store.TagBlueprint` (store.go): tag the most recent commit.  Returns
the Go error next to the state after the call.  (The final Go assignment
`s.BlueprintsChanges[name][latest] = change` would panic on a nil inner
map; the association-list write models the materialized-map case, which
is the only one the store itself produces.) -/
def Store.tagBlueprint (s : Store) (name : String) : Option StoreError × Store :=
  match alookup s.blueprints name with
  | none => (some (.plain "Unknown blueprint"), s)
  | some _ =>
    let commits := (alookup s.blueprintsCommits name).getD []
    match commits.getLast? with
    | none => (some (.plain "No commits for blueprint"), s)
    | some latest =>
      let chmap := (alookup s.blueprintsChanges name).getD []
      if ((alookup chmap latest).getD Change.goZero).revision ≠ none then
        (none, s)
      else
        let scan := tagScan chmap commits.reverse
        let revision := scan.1 + 1
        let change := { scan.2 with revision := some revision }
        let changes1 := aset s.blueprintsChanges name (aset chmap latest change)
        (none, { s with blueprintsChanges := changes1 })

/-- `Store.DeleteBlueprint`: the workspace entry goes unconditionally; the
committed entry must exist. -/
def Store.deleteBlueprint (s : Store) (name : String) : Option StoreError × Store :=
  let s1 := { s with workspace := adelete s.workspace name }
  match alookup s.blueprints name with
  | none => (some (.plain ("Unknown blueprint: " ++ name)), s1)
  | some _ => (none, { s1 with blueprints := adelete s.blueprints name })

/-- Stamp `JobFinished` on image build `i`
(`currentCompose.ImageBuilds[imageBuildID].JobFinished = time.Now()`). -/
def stampJobFinished (c : Compose) (i : Nat) (now : Nat) : Compose :=
  match c.imageBuilds.get? i with
  | none => c
  | some ib => { c with imageBuilds := c.imageBuilds.set i { ib with jobFinished := now } }

/-- `Store.UpdateImageBuildInCompose` (store.go).  The result-file write is
I/O and carries no store state; the outer `Option` is `none` on the index
panic.  Note the guard: the call fails with `NotPendingError` precisely
when the build's queue status *is* `Waiting`. -/
def Store.updateImageBuildInCompose (s : Store) (composeID : UUID) (imageBuildID : Nat)
    (status : ImageBuildState) (result : Option ComposeResult) (now : Nat) :
    Option (Except StoreError Store) :=
  match ulookup s.composes composeID with
  | none => some (.error (.notFound "compose does not exist"))
  | some currentCompose =>
    match currentCompose.imageBuilds.get? imageBuildID with
    | none => none
    | some ib =>
      if ib.queueStatus = .waiting then
        some (.error (.notPending "compose has not been popped"))
      else
        match currentCompose.updateState imageBuildID status with
        | none => none
        | some (some e, _) =>
          some (.error (.invalidRequest ("invalid state transition: " ++ e.message)))
        | some (none, updated) =>
          let final :=
            if status = .finished ∨ status = .failed then
              stampJobFinished updated imageBuildID now
            else updated
          some (.ok { s with composes := uset s.composes composeID final })

/-! ### Ordering facts about `changeLess` and association-list lemmas -/

/-! ## Spec-side characterizations and concrete instances used by the
claim theorems, their witnesses and counterexamples -/

/-- The revision `TagBlueprint`'s scan loop actually finds, characterized
independently of the loop: the revision of the newest commit bearing a
positive revision, `0` when there is none. -/
def newestPositiveRev (chmap : List (String × Change)) (commits : List String) : Int :=
  ((commits.reverse.map
      (fun c => ((alookup chmap c).getD Change.goZero).revision.getD 0)).find?
    (fun r => decide (0 < r))).getD 0

/-- An image build still waiting in the queue-status sense. -/
def ibWaitingX : ImageBuild :=
  { idNum := 0, manifest := none, targets := [], jobCreated := 0, jobStarted := 0,
    jobFinished := 0, size := 0, jobId := uuidNil, queueStatus := .waiting }

/-- A running image build with one target. -/
def ibRunningX : ImageBuild :=
  { ibWaitingX with queueStatus := .running, targets := [⟨"local", .waiting⟩] }

/-- A finished image build. -/
def ibFinishedX : ImageBuild := { ibWaitingX with queueStatus := .finished }

/-- A compose holding a single waiting image build. -/
def composeC1 : Compose := { blueprint := none, imageBuilds := [ibWaitingX] }

/-- A store with exactly that compose. -/
def storeC1 : Store :=
  { blueprints := [], workspace := [], composes := [(uuidNil, composeC1)],
    sources := [], blueprintsChanges := [], blueprintsCommits := [] }

/-- A compose holding a single running image build with one target. -/
def composeC4 : Compose := { blueprint := none, imageBuilds := [ibRunningX] }

/-- A small committed blueprint. -/
def bpB : Blueprint := ⟨"b", "0.0.1", .null⟩

/-- Oldest commit of the tag counterexample: revision 5. -/
def ch1C2 : Change := ⟨"c1", "m1", "2020-01-01T00:00:01Z", bpB, some 5⟩

/-- Middle commit of the tag counterexample: revision 2. -/
def ch2C2 : Change := ⟨"c2", "m2", "2020-01-01T00:00:02Z", bpB, some 2⟩

/-- Latest commit of the tag counterexample: no revision yet. -/
def ch3C2 : Change := ⟨"c3", "m3", "2020-01-01T00:00:03Z", bpB, none⟩

/-- A store whose blueprint `b` has commits with non-monotone revisions
`[5, 2, —]`: a state the store deserializes without complaint. -/
def storeC2 : Store :=
  { blueprints := [("b", bpB)], workspace := [], composes := [], sources := [],
    blueprintsChanges := [("b", [("c1", ch1C2), ("c2", ch2C2), ("c3", ch3C2)])],
    blueprintsCommits := [("b", ["c1", "c2", "c3"])] }

/-- A single untagged commit. -/
def chTagW : Change := ⟨"cw", "m", "2020-02-02T00:00:00Z", bpB, none⟩

/-- A store with one blueprint having one untagged commit. -/
def storeC2W : Store :=
  { blueprints := [("b", bpB)], workspace := [], composes := [], sources := [],
    blueprintsChanges := [("b", [("cw", chTagW)])],
    blueprintsCommits := [("b", ["cw"])] }

/-- A UUID whose first two bytes are `02 01`. -/
def uuidA : UUID := [2, 1, 0, 0, 0, 0, 0, 0, 0, 0, 0, 0, 0, 0, 0, 0]

/-- A UUID whose first two bytes are `01 02`; bytewise, `uuidB < uuidA`. -/
def uuidB : UUID := [1, 2, 0, 0, 0, 0, 0, 0, 0, 0, 0, 0, 0, 0, 0, 0]

/-- A fresh UUID for newly enqueued jobs. -/
def uuidFresh : UUID := [7, 7, 7, 0, 0, 0, 0, 0, 0, 0, 0, 0, 0, 0, 0, 0]

/-- A finished job document with the given id. -/
def jobFin (id : UUID) : Job :=
  { id := id, jobType := "test", args := .null, dependencies := [],
    result := some .null, status := .finished, queuedAt := 0, startedAt := 0,
    finishedAt := 0 }

/-- A queue holding the two finished jobs `uuidA`, `uuidB`. -/
def queueC3 : FSJobQueue :=
  { jobs := [(uuidA, jobFin uuidA), (uuidB, jobFin uuidB)], pending := [],
    dependants := [] }

/-- The empty queue (fresh directory). -/
def queueEmpty : FSJobQueue := { jobs := [], pending := [], dependants := [] }

/-- Commit `d1`, version `0.0.1`, same second as `d2`. -/
def ch1C6 : Change := ⟨"d1", "", "2020-01-01T00:00:01Z", ⟨"b", "0.0.1", .null⟩, none⟩

/-- Commit `d2`, version `0.0.2`, same second as `d1`. -/
def ch2C6 : Change := ⟨"d2", "", "2020-01-01T00:00:01Z", ⟨"b", "0.0.2", .null⟩, none⟩

/-- A persisted state with two changes for `b` but an empty commit list
(the (d2, d1) order models the random map iteration order). -/
def storeC6 : Store :=
  { blueprints := [], workspace := [], composes := [], sources := [],
    blueprintsChanges := [("b", [("d2", ch2C6), ("d1", ch1C6)])],
    blueprintsCommits := [] }

/-- The store after construction from `storeC6`: the commit list of `b`
is reconstructed sorted. -/
def storeC6N : Store := { storeC6 with blueprintsCommits := [("b", ["d1", "d2"])] }

/-- A compose with an empty image-build list — forbidden on load. -/
def composeC9bad : Compose := { blueprint := none, imageBuilds := [] }

/-- A persisted state containing the forbidden compose. -/
def storeC9bad : Store :=
  { blueprints := [], workspace := [], composes := [(uuidNil, composeC9bad)],
    sources := [], blueprintsChanges := [], blueprintsCommits := [] }

/-- A persisted state whose only compose has one (finished) image build. -/
def storeC9good : Store :=
  { blueprints := [], workspace := [],
    composes := [(uuidNil, { blueprint := none, imageBuilds := [ibFinishedX] })],
    sources := [], blueprintsChanges := [], blueprintsCommits := [] }

/-- The job document `Enqueue` persists for a no-dependency job. -/
def enqueuedJob (t : String) (j : Json) (fid : UUID) (now : Nat) : Job :=
  { id := fid, jobType := t, args := j, dependencies := [], result := none,
    status := .pending, queuedAt := now, startedAt := 0, finishedAt := 0 }

/-! ## Lemmas and claim theorems -/

theorem alookup_aset_self {α : Type _} (m : List (String × α)) (k : String) (v : α) :
    alookup (aset m k v) k = some v := by
  induction m with
  | nil => simp [aset, alookup]
  | cons p rest ih =>
    obtain ⟨k', v'⟩ := p
    by_cases h : k' = k <;> simp [aset, alookup, h, ih]

theorem alookup_aset_ne {α : Type _} (m : List (String × α)) (k k' : String) (v : α)
    (h : k ≠ k') : alookup (aset m k v) k' = alookup m k' := by
  induction m with
  | nil => simp [aset, alookup, h]
  | cons p rest ih =>
    obtain ⟨k₀, v₀⟩ := p
    by_cases h0 : k₀ = k
    · subst h0
      simp [aset, alookup, h]
    · simp [aset, alookup, h0, ih]

theorem goInsert_perm {α : Type _} (less : α → α → Bool) (l : List α) (x : α) :
    List.Perm (goInsert less l x).1 (x :: l) := by
  induction l with
  | nil => simp [goInsert]
  | cons y ys ih =>
    simp only [goInsert]
    by_cases hb : (goInsert less ys x).2 && less x y
    · simp [hb]
    · simp only [hb, if_false]
      exact (List.Perm.cons y ih).trans (List.Perm.swap x y ys)

theorem goSortSlice_perm {α : Type _} (less : α → α → Bool) (l : List α) :
    List.Perm (goSortSlice less l) l := by
  suffices h : ∀ acc : List α,
      List.Perm (l.foldl (fun acc x => (goInsert less acc x).1) acc) (l.reverse ++ acc) by
    have h0 := h []
    simp only [List.append_nil] at h0
    exact h0.trans l.reverse_perm
  induction l with
  | nil => intro acc; simp
  | cons y ys ih =>
    intro acc
    simp only [List.foldl_cons, List.reverse_cons, List.append_assoc, List.singleton_append]
    refine (ih _).trans ?_
    refine List.Perm.append_left _ ?_
    exact goInsert_perm less acc y

theorem goInsert_flag_true {α : Type _} (less : α → α → Bool) (l : List α) (x : α)
    (h : (goInsert less l x).2 = true) : (goInsert less l x).1 = x :: l := by
  induction l with
  | nil => simp [goInsert]
  | cons y ys ih =>
    simp only [goInsert] at h ⊢
    by_cases hb : (goInsert less ys x).2 && less x y
    · simp [hb]
    · simp [hb] at h

theorem goInsert_flag_false {α : Type _} (less : α → α → Bool) (l : List α) (x : α)
    (h : (goInsert less l x).2 = false) : ∃ z ∈ l, less x z = false := by
  induction l with
  | nil => simp [goInsert] at h
  | cons y ys ih =>
    simp only [goInsert] at h
    by_cases hb : (goInsert less ys x).2 && less x y
    · simp [hb] at h
    · rcases Bool.and_eq_false_iff.mp (Bool.eq_false_iff.mpr hb) with hf | hf
      · obtain ⟨z, hz, hzf⟩ := ih hf
        exact ⟨z, List.mem_cons_of_mem y hz, hzf⟩
      · exact ⟨y, List.mem_cons_self y ys, hf⟩

/-- Insertion preserves sortedness for a comparator that is asymmetric and
whose complement is transitive (a strict weak ordering). -/
theorem goInsert_sorted {α : Type _} (less : α → α → Bool)
    (hasym : ∀ a b, less a b = true → less b a = false)
    (htrans : ∀ a b c, less b a = false → less c b = false → less c a = false)
    (l : List α) (x : α) (hl : l.Pairwise (fun a b => less b a = false)) :
    (goInsert less l x).1.Pairwise (fun a b => less b a = false) := by
  induction l with
  | nil => simp [goInsert]
  | cons y ys ih =>
    rw [List.pairwise_cons] at hl
    obtain ⟨hy, hys⟩ := hl
    simp only [goInsert]
    cases hb : (goInsert less ys x).2 && less x y with
    | true =>
      obtain ⟨hflag, hxy⟩ := Bool.and_eq_true_iff.mp hb
      simp only [if_true]
      rw [List.pairwise_cons]
      constructor
      · intro z hz
        rcases List.mem_cons.mp hz with rfl | hz'
        · exact hasym x z hxy
        · exact htrans x y z (hasym x y hxy) (hy z hz')
      · exact List.pairwise_cons.mpr ⟨hy, hys⟩
    | false =>
      simp only [Bool.false_eq_true, if_false]
      rw [List.pairwise_cons]
      refine ⟨?_, ih hys⟩
      intro z hz
      have hz' := (goInsert_perm less ys x).mem_iff.mp hz
      rcases List.mem_cons.mp hz' with rfl | hzys
      · -- `z = x`: x failed to pass `y`, either directly or inside `ys`.
        rcases Bool.and_eq_false_iff.mp hb with hf | hf
        · obtain ⟨w, hw, hwf⟩ := goInsert_flag_false less ys z hf
          exact htrans y w z (hy w hw) hwf
        · exact hf
      · exact hy z hzys

theorem goSortSlice_sorted {α : Type _} (less : α → α → Bool)
    (hasym : ∀ a b, less a b = true → less b a = false)
    (htrans : ∀ a b c, less b a = false → less c b = false → less c a = false)
    (l : List α) :
    (goSortSlice less l).Pairwise (fun a b => less b a = false) := by
  suffices h : ∀ acc : List α, acc.Pairwise (fun a b => less b a = false) →
      (l.foldl (fun acc x => (goInsert less acc x).1) acc).Pairwise
        (fun a b => less b a = false) by
    exact h [] (List.Pairwise.nil)
  induction l with
  | nil => intro acc hacc; simpa using hacc
  | cons y ys ih =>
    intro acc hacc
    simp only [List.foldl_cons]
    exact ih _ (goInsert_sorted less hasym htrans acc y hacc)

theorem strCmp_lt_iff (a b : String) : strCmp a b = -1 ↔ a < b := by
  unfold strCmp
  split_ifs with h1 h2
  · simp only [show (1 : Int) ≠ -1 by decide, false_iff]
    exact lt_asymm h1
  · simp [h2]
  · simp only [show (0 : Int) ≠ -1 by decide, false_iff]
    exact h2

theorem strCmp_eq_zero_iff (a b : String) : strCmp a b = 0 ↔ a = b := by
  unfold strCmp
  split_ifs with h1 h2
  · simp only [show (1 : Int) ≠ 0 by decide, false_iff]
    exact fun h => absurd h1 (by simp [h])
  · simp only [show (-1 : Int) ≠ 0 by decide, false_iff]
    exact fun h => absurd h2 (by simp [h])
  · simp only [true_iff]
    exact le_antisymm (not_lt.mp h1) (not_lt.mp h2)

theorem strCmp_lawful : CmpLawful strCmp := by
  refine ⟨?_, ?_, ?_, ?_⟩
  · intro a b; unfold strCmp; split_ifs <;> simp
  · intro a b
    unfold strCmp
    rcases lt_trichotomy a b with h | h | h
    · simp [h, lt_asymm h]
    · simp [h, lt_irrefl]
    · simp [h, lt_asymm h]
  · intro a b c hab hbc
    exact (strCmp_lt_iff a c).mpr
      (lt_trans ((strCmp_lt_iff a b).mp hab) ((strCmp_lt_iff b c).mp hbc))
  · intro a b hab c
    rw [(strCmp_eq_zero_iff a b).mp hab]

theorem segCmp_lawful : CmpLawful segCmp := by
  refine ⟨?_, ?_, ?_, ?_⟩
  · intro a b
    unfold segCmp
    cases goParseInt64 a <;> cases goParseInt64 b <;>
      first
      | (apply strCmp_lawful.1)
      | (simp only []; split_ifs <;> simp)
      | simp
  · intro a b
    unfold segCmp
    cases goParseInt64 a <;> cases goParseInt64 b <;>
      first
      | (apply strCmp_lawful.2.1)
      | (simp only []; split_ifs <;> omega)
      | simp
  · intro a b c hab hbc
    unfold segCmp at hab hbc ⊢
    cases ha : goParseInt64 a <;> cases hb : goParseInt64 b <;>
        cases hc : goParseInt64 c <;>
      simp only [ha, hb, hc] at hab hbc ⊢ <;>
      first
      | rfl
      | exact strCmp_lawful.2.2.1 a b c hab hbc
      | (split_ifs at hab hbc ⊢ <;> omega)
      | omega
  · intro a b hab c
    unfold segCmp at hab ⊢
    cases ha : goParseInt64 a with
    | none =>
      cases hb : goParseInt64 b with
      | none =>
        simp only [ha, hb] at hab
        have hb' : a = b := (strCmp_eq_zero_iff a b).mp hab
        subst hb'
        rfl
      | some bv =>
        simp only [ha, hb] at hab
        exact absurd hab (by decide)
    | some av =>
      cases hb : goParseInt64 b with
      | none =>
        simp only [ha, hb] at hab
        exact absurd hab (by decide)
      | some bv =>
        simp only [ha, hb] at hab
        have hv : av = bv := by split_ifs at hab <;> omega
        subst hv
        cases goParseInt64 c <;> rfl

theorem preSegsCmp_range (a b : List String) :
    preSegsCmp a b = -1 ∨ preSegsCmp a b = 0 ∨ preSegsCmp a b = 1 := by
  induction a generalizing b with
  | nil => cases b <;> simp [preSegsCmp]
  | cons x xs ih =>
    cases b with
    | nil => simp [preSegsCmp]
    | cons y ys =>
      simp only [preSegsCmp]
      split_ifs with h
      · exact ih ys
      · rcases segCmp_lawful.1 x y with h' | h' | h'
        · exact Or.inl h'
        · exact absurd h' h
        · exact Or.inr (Or.inr h')

theorem preSegsCmp_antisym (a b : List String) : preSegsCmp a b = -(preSegsCmp b a) := by
  induction a generalizing b with
  | nil => cases b <;> simp [preSegsCmp]
  | cons x xs ih =>
    cases b with
    | nil => simp [preSegsCmp]
    | cons y ys =>
      simp only [preSegsCmp]
      have hxy := segCmp_lawful.2.1 x y
      by_cases h : segCmp x y = 0
      · have h' : segCmp y x = 0 := by omega
        simp [h, h', ih ys]
      · have h' : segCmp y x ≠ 0 := by omega
        rw [if_neg h, if_neg h']
        omega

theorem preSegsCmp_ltTrans (a b c : List String) (hab : preSegsCmp a b = -1)
    (hbc : preSegsCmp b c = -1) : preSegsCmp a c = -1 := by
  induction a generalizing b c with
  | nil =>
    cases b with
    | nil => simp [preSegsCmp] at hab
    | cons y ys =>
      cases c with
      | nil => simp [preSegsCmp] at hbc
      | cons z zs => simp [preSegsCmp]
  | cons x xs ih =>
    cases b with
    | nil => simp [preSegsCmp] at hab
    | cons y ys =>
      cases c with
      | nil => simp [preSegsCmp] at hbc
      | cons z zs =>
        simp only [preSegsCmp] at hab hbc ⊢
        by_cases hxy : segCmp x y = 0 <;> by_cases hyz : segCmp y z = 0
        · have hxz : segCmp x z = 0 := by
            rw [segCmp_lawful.2.2.2 x y hxy z]
            exact hyz
          simp only [hxy, if_true] at hab
          simp only [hyz, if_true] at hbc
          simp only [hxz, if_true]
          exact ih ys zs hab hbc
        · have hxz : segCmp x z = segCmp y z := segCmp_lawful.2.2.2 x y hxy z
          rw [if_neg hyz] at hbc
          have hxz1 : segCmp x z = -1 := by omega
          rw [if_neg (by omega), hxz1]
        · have h0 : segCmp z y = 0 := by
            have := segCmp_lawful.2.1 y z
            omega
          have hxz : segCmp x z = segCmp x y := by
            have h1 := segCmp_lawful.2.2.2 z y h0 x
            have h2 := segCmp_lawful.2.1 x z
            have h3 := segCmp_lawful.2.1 x y
            omega
          rw [if_neg hxy] at hab
          have hxz1 : segCmp x z = -1 := by omega
          rw [if_neg (by omega), hxz1]
        · rw [if_neg hxy] at hab
          rw [if_neg hyz] at hbc
          have hxz : segCmp x z = -1 := segCmp_lawful.2.2.1 x y z hab hbc
          rw [if_neg (by omega), hxz]

theorem preSegsCmp_zeroCongr (a b : List String) (hab : preSegsCmp a b = 0)
    (c : List String) : preSegsCmp a c = preSegsCmp b c := by
  induction a generalizing b c with
  | nil =>
    cases b with
    | nil => rfl
    | cons y ys => simp [preSegsCmp] at hab
  | cons x xs ih =>
    cases b with
    | nil => simp [preSegsCmp] at hab
    | cons y ys =>
      simp only [preSegsCmp] at hab
      by_cases hxy : segCmp x y = 0
      · simp only [hxy, if_true] at hab
        cases c with
        | nil => rfl
        | cons z zs =>
          simp only [preSegsCmp]
          rw [segCmp_lawful.2.2.2 x y hxy z]
          split_ifs with h
          · exact ih ys hab zs
          · rfl
      · rw [if_neg hxy] at hab
        exact absurd hab hxy

theorem preSegsCmp_lawful : CmpLawful preSegsCmp :=
  ⟨preSegsCmp_range, preSegsCmp_antisym, preSegsCmp_ltTrans, preSegsCmp_zeroCongr⟩

theorem preCmpStr_ne_ne (a b : String) (ha : a ≠ "") (hb : b ≠ "") :
    preCmpStr a b = preSegsCmp (a.splitOn ".") (b.splitOn ".") := by
  unfold preCmpStr
  rw [if_neg (by tauto), if_neg ha, if_neg hb]

theorem preCmpStr_empty_left (b : String) (hb : b ≠ "") : preCmpStr "" b = 1 := by
  unfold preCmpStr
  rw [if_neg (by tauto), if_pos rfl]

theorem preCmpStr_empty_right (a : String) (ha : a ≠ "") : preCmpStr a "" = -1 := by
  unfold preCmpStr
  rw [if_neg (by tauto), if_neg ha, if_pos rfl]

theorem preCmpStr_lawful : CmpLawful preCmpStr := by
  refine ⟨?_, ?_, ?_, ?_⟩
  · intro a b
    by_cases ha : a = "" <;> by_cases hb : b = ""
    · subst ha; subst hb; simp [preCmpStr]
    · subst ha; rw [preCmpStr_empty_left b hb]; simp
    · subst hb; rw [preCmpStr_empty_right a ha]; simp
    · rw [preCmpStr_ne_ne a b ha hb]; exact preSegsCmp_range _ _
  · intro a b
    by_cases ha : a = "" <;> by_cases hb : b = ""
    · subst ha; subst hb; rfl
    · subst ha
      rw [preCmpStr_empty_left b hb, preCmpStr_empty_right b hb]
      rfl
    · subst hb
      rw [preCmpStr_empty_right a ha, preCmpStr_empty_left a ha]
    · rw [preCmpStr_ne_ne a b ha hb, preCmpStr_ne_ne b a hb ha]
      exact preSegsCmp_antisym _ _
  · intro a b c hab hbc
    by_cases hb : b = ""
    · exfalso
      subst hb
      by_cases hc : c = ""
      · subst hc; simp [preCmpStr] at hbc
      · rw [preCmpStr_empty_left c hc] at hbc; exact absurd hbc (by decide)
    · have ha : a ≠ "" := by
        intro h
        subst h
        rw [preCmpStr_empty_left b hb] at hab
        exact absurd hab (by decide)
      by_cases hc : c = ""
      · subst hc; exact preCmpStr_empty_right a ha
      · rw [preCmpStr_ne_ne a b ha hb] at hab
        rw [preCmpStr_ne_ne b c hb hc] at hbc
        rw [preCmpStr_ne_ne a c ha hc]
        exact preSegsCmp_ltTrans _ _ _ hab hbc
  · intro a b hab c
    by_cases ha : a = "" <;> by_cases hb : b = ""
    · subst ha; subst hb; rfl
    · exfalso
      subst ha
      rw [preCmpStr_empty_left b hb] at hab
      exact absurd hab (by decide)
    · exfalso
      subst hb
      rw [preCmpStr_empty_right a ha] at hab
      exact absurd hab (by decide)
    · rw [preCmpStr_ne_ne a b ha hb] at hab
      by_cases hc : c = ""
      · subst hc
        rw [preCmpStr_empty_right a ha, preCmpStr_empty_right b hb]
      · rw [preCmpStr_ne_ne a c ha hc, preCmpStr_ne_ne b c hb hc]
        exact preSegsCmp_zeroCongr _ _ hab _

theorem intCmp3_lawful : CmpLawful intCmp3 := by
  refine ⟨?_, ?_, ?_, ?_⟩
  · intro a b; unfold intCmp3; split_ifs <;> simp
  · intro a b; unfold intCmp3; split_ifs <;> omega
  · intro a b c hab hbc
    unfold intCmp3 at hab hbc ⊢
    split_ifs at hab hbc ⊢ <;> omega
  · intro a b hab c
    unfold intCmp3 at hab
    have e : a = b := by split_ifs at hab <;> omega
    rw [e]

/-- Lifting a lawful comparator along a projection keeps it lawful. -/
theorem cmpOn_lawful {α β : Type _} (f : α → β) (g : β → β → Int)
    (hg : CmpLawful g) : CmpLawful (fun a b => g (f a) (f b)) :=
  ⟨fun a b => hg.1 _ _, fun a b => hg.2.1 _ _, fun a b c => hg.2.2.1 _ _ _,
    fun a b h c => hg.2.2.2 _ _ h _⟩

theorem cmpThen_lawful {α : Type _} (f g : α → α → Int) (hf : CmpLawful f)
    (hg : CmpLawful g) :
    CmpLawful (fun a b => if f a b = 0 then g a b else f a b) := by
  obtain ⟨hfr, hfa, hft, hfz⟩ := hf
  obtain ⟨hgr, hga, hgt, hgz⟩ := hg
  refine ⟨?_, ?_, ?_, ?_⟩
  · intro a b
    by_cases h : f a b = 0
    · simpa [h] using hgr a b
    · simpa [h] using hfr a b
  · intro a b
    by_cases h : f a b = 0
    · have h' : f b a = 0 := by have := hfa a b; omega
      simpa [h, h'] using hga a b
    · have h' : f b a ≠ 0 := by have := hfa a b; omega
      simpa [h, h'] using hfa a b
  · intro a b c hab hbc
    simp only at hab hbc ⊢
    by_cases h1 : f a b = 0 <;> by_cases h2 : f b c = 0
    · rw [if_pos h1] at hab
      rw [if_pos h2] at hbc
      have h3 : f a c = 0 := by rw [hfz a b h1]; exact h2
      rw [if_pos h3]
      exact hgt a b c hab hbc
    · rw [if_pos h1] at hab
      rw [if_neg h2] at hbc
      have h3 : f a c = f b c := hfz a b h1 c
      rw [if_neg (by omega)]
      omega
    · rw [if_neg h1] at hab
      rw [if_pos h2] at hbc
      have h0 : f c b = 0 := by have := hfa b c; omega
      have h3 : f c a = f b a := hfz c b h0 a
      have h4 := hfa a c
      have h5 := hfa a b
      rw [if_neg (by omega)]
      omega
    · rw [if_neg h1] at hab
      rw [if_neg h2] at hbc
      have h3 : f a c = -1 := hft a b c hab hbc
      rw [if_neg (by omega)]
      exact h3
  · intro a b hab c
    simp only at hab ⊢
    by_cases h1 : f a b = 0
    · rw [if_pos h1] at hab
      have h3 : f a c = f b c := hfz a b h1 c
      by_cases h4 : f a c = 0
      · rw [if_pos h4, if_pos (by omega)]
        exact hgz a b hab c
      · rw [if_neg h4, if_neg (by omega)]
        exact h3
    · rw [if_neg h1] at hab
      exact absurd hab h1

theorem mainCmp_lawful : CmpLawful mainCmp := by
  have hmaj := cmpOn_lawful (fun v : SemVer => v.major) intCmp3 intCmp3_lawful
  have hmin := cmpOn_lawful (fun v : SemVer => v.minor) intCmp3 intCmp3_lawful
  have hpat := cmpOn_lawful (fun v : SemVer => v.patch) intCmp3 intCmp3_lawful
  have hinner := cmpThen_lawful _ _ hmin hpat
  exact cmpThen_lawful _ _ hmaj hinner

theorem preReleaseCmp_lawful : CmpLawful preReleaseCmp := by
  obtain ⟨hr, ha, ht, hz⟩ := preCmpStr_lawful
  exact ⟨fun a b => hr _ _, fun a b => ha _ _, fun a b c => ht _ _ _,
    fun a b h c => hz _ _ h _⟩

theorem semverCmp_lawful : CmpLawful semverCmp :=
  cmpThen_lawful mainCmp preReleaseCmp mainCmp_lawful preReleaseCmp_lawful

theorem cmpLawful_notLT_trans {α : Type _} {f : α → α → Int} (hf : CmpLawful f)
    (a b c : α) (h1 : f b a ≠ -1) (h2 : f c b ≠ -1) : f c a ≠ -1 := by
  intro hca
  rcases hf.1 c b with h | h | h
  · exact h2 h
  · have := hf.2.2.2 c b h a
    rw [this] at hca
    exact h1 hca
  · have hbc : f b c = -1 := by have := hf.2.1 b c; omega
    exact h1 (hf.2.2.1 b c a hbc hca)

theorem semverLessThan_eq_true_iff (v w : SemVer) :
    semverLessThan v w = true ↔ semverCmp v w = -1 := by
  simp [semverLessThan]

theorem semverLessThan_asym (v w : SemVer) (h : semverLessThan v w = true) :
    semverLessThan w v = false := by
  rw [semverLessThan_eq_true_iff] at h
  have := semverCmp_lawful.2.1 v w
  simp [semverLessThan]
  omega

theorem semverLessThan_notLT_trans (a b c : SemVer)
    (h1 : semverLessThan b a = false) (h2 : semverLessThan c b = false) :
    semverLessThan c a = false := by
  simp only [semverLessThan, decide_eq_false_iff_not] at h1 h2 ⊢
  exact cmpLawful_notLT_trans semverCmp_lawful a b c h1 h2

theorem changeLess_asym (a b : Change) (h : changeLess a b = true) :
    changeLess b a = false := by
  unfold changeLess at h ⊢
  by_cases hts : a.timestamp = b.timestamp
  · rw [if_pos hts] at h
    rw [if_pos hts.symm]
    exact semverLessThan_asym _ _ h
  · rw [if_neg hts] at h
    rw [if_neg (fun hh => hts hh.symm)]
    simp only [decide_eq_true_eq] at h
    simp only [decide_eq_false_iff_not]
    exact lt_asymm h

theorem changeLess_notLT_trans (a b c : Change) (h1 : changeLess b a = false)
    (h2 : changeLess c b = false) : changeLess c a = false := by
  unfold changeLess at h1 h2 ⊢
  by_cases hba : b.timestamp = a.timestamp <;> by_cases hcb : c.timestamp = b.timestamp
  · rw [if_pos hba] at h1
    rw [if_pos hcb] at h2
    rw [if_pos (hcb.trans hba)]
    exact semverLessThan_notLT_trans _ _ _ h1 h2
  · rw [if_pos hba] at h1
    rw [if_neg hcb] at h2
    rw [if_neg (fun hh => hcb (hh.trans hba.symm))]
    simp only [decide_eq_false_iff_not] at h2 ⊢
    rw [← hba]
    exact h2
  · rw [if_neg hba] at h1
    rw [if_pos hcb] at h2
    rw [if_neg (fun hh => hba (hcb.symm.trans hh))]
    simp only [decide_eq_false_iff_not] at h1 ⊢
    rw [hcb]
    exact h1
  · rw [if_neg hba] at h1
    rw [if_neg hcb] at h2
    simp only [decide_eq_false_iff_not] at h1 h2
    have hab : a.timestamp ≤ b.timestamp := not_lt.mp h1
    have hbc : b.timestamp ≤ c.timestamp := not_lt.mp h2
    have hca : c.timestamp ≠ a.timestamp := by
      intro hh
      exact hba (le_antisymm (hh ▸ hbc) hab)
    rw [if_neg hca]
    simp only [decide_eq_false_iff_not]
    exact not_lt.mpr (le_trans hab hbc)

theorem alookup_mem {α : Type _} (l : List (String × α)) (k : String) (v : α)
    (h : alookup l k = some v) : (k, v) ∈ l := by
  induction l with
  | nil => simp [alookup] at h
  | cons p rest ih =>
    obtain ⟨k', v'⟩ := p
    by_cases hk : k' = k
    · subst hk
      simp [alookup] at h
      simp [h]
    · simp only [alookup, if_neg hk] at h
      exact List.mem_cons_of_mem _ (ih h)

theorem alookup_of_mem_nodup {α : Type _} (l : List (String × α)) (k : String) (v : α)
    (hmem : (k, v) ∈ l) (hnd : (l.map Prod.fst).Nodup) : alookup l k = some v := by
  induction l with
  | nil => simp at hmem
  | cons p rest ih =>
    obtain ⟨k', v'⟩ := p
    simp only [List.map_cons, List.nodup_cons] at hnd
    rcases List.mem_cons.mp hmem with h | h
    · cases h
      simp [alookup]
    · have hk : k' ≠ k := by
        intro hh
        subst hh
        exact hnd.1 (List.mem_map.mpr ⟨(k', v), h, rfl⟩)
      simp only [alookup, if_neg hk]
      exact ih h hnd.2

theorem ulookup_uset_self {α : Type _} (m : List (List Nat × α)) (k : List Nat) (v : α) :
    ulookup (uset m k v) k = some v := by
  induction m with
  | nil => simp [uset, ulookup]
  | cons p rest ih =>
    obtain ⟨k', v'⟩ := p
    by_cases h : k' = k <;> simp [uset, ulookup, h, ih]

theorem normalize_not_mem (changes : List (String × List (String × Change)))
    (acc : List (String × List String)) (name : String)
    (h : name ∉ changes.map Prod.fst) :
    alookup (normalizeBlueprintsCommits changes acc) name = alookup acc name := by
  induction changes generalizing acc with
  | nil => rfl
  | cons e rest ih =>
    simp only [List.map_cons, List.mem_cons, not_or] at h
    simp only [normalizeBlueprintsCommits, List.foldl_cons]
    rw [show (List.foldl _ _ rest : List (String × List String)) =
      normalizeBlueprintsCommits rest _ from rfl, ih _ h.2]
    split_ifs with hc
    · exact alookup_aset_ne _ _ _ _ (fun hh => h.1 hh.symm)
    · rfl

theorem normalize_lookup (changes : List (String × List (String × Change)))
    (acc : List (String × List String)) (name : String) (chm : List (String × Change))
    (hmem : (name, chm) ∈ changes) (hnd : (changes.map Prod.fst).Nodup) :
    alookup (normalizeBlueprintsCommits changes acc) name =
      if chm.length ≠ ((alookup acc name).getD []).length then
        some (rebuildCommits chm)
      else alookup acc name := by
  induction changes generalizing acc with
  | nil => simp at hmem
  | cons e rest ih =>
    obtain ⟨k, v⟩ := e
    simp only [List.map_cons, List.nodup_cons] at hnd
    simp only [normalizeBlueprintsCommits, List.foldl_cons]
    rcases List.mem_cons.mp hmem with h | h
    · cases h
      have hnot : name ∉ rest.map Prod.fst := hnd.1
      rw [show (List.foldl _ _ rest : List (String × List String)) =
        normalizeBlueprintsCommits rest _ from rfl, normalize_not_mem rest _ name hnot]
      split_ifs with hc
      · exact alookup_aset_self _ _ _
      · rfl
    · have hk : k ≠ name := by
        intro hh
        subst hh
        exact hnd.1 (List.mem_map.mpr ⟨(k, chm), h, rfl⟩)
      rw [show (List.foldl _ _ rest : List (String × List String)) =
        normalizeBlueprintsCommits rest _ from rfl]
      have hacc : ∀ acc', alookup (if v.length ≠ ((alookup acc' k).getD []).length
          then aset acc' k (rebuildCommits v) else acc') name = alookup acc' name := by
        intro acc'
        split_ifs with hc
        · exact alookup_aset_ne _ _ _ _ hk
        · rfl
      rw [ih _ h hnd.2, hacc acc]

theorem rebuild_map_lookup (chm : List (String × Change))
    (hkeys : (chm.map Prod.fst).Nodup) (hwf : ∀ p ∈ chm, p.2.commit = p.1) :
    (rebuildCommits chm).map
        (fun commit => (alookup chm commit).getD Change.goZero) =
      goSortSlice changeLess (chm.map Prod.snd) := by
  unfold rebuildCommits
  rw [List.map_map]
  have hmem : ∀ c ∈ goSortSlice changeLess (chm.map Prod.snd),
      ((fun commit => (alookup chm commit).getD Change.goZero) ∘ fun c => c.commit) c = c := by
    intro c hc
    have hc' : c ∈ chm.map Prod.snd :=
      (goSortSlice_perm changeLess (chm.map Prod.snd)).subset hc
    obtain ⟨p, hp, hpc⟩ := List.mem_map.mp hc'
    have hcommit : c.commit = p.1 := by rw [← hpc]; exact hwf p hp
    have : alookup chm c.commit = some c := by
      rw [hcommit]
      have := alookup_of_mem_nodup chm p.1 p.2 (by simpa using hp) hkeys
      rw [this, hpc]
    simp [Function.comp, this]
  calc (goSortSlice changeLess (chm.map Prod.snd)).map
        ((fun commit => (alookup chm commit).getD Change.goZero) ∘ fun c => c.commit)
      = (goSortSlice changeLess (chm.map Prod.snd)).map id := List.map_congr_left hmem
    _ = goSortSlice changeLess (chm.map Prod.snd) := List.map_id _

theorem list_get?_set_self {α : Type _} :
    ∀ (l : List α) (i : Nat) (a : α), i < l.length → (l.set i a).get? i = some a
  | _ :: _, 0, _, _ => rfl
  | _ :: xs, i + 1, a, h => list_get?_set_self xs i a (by simpa using h)
  | [], _, _, h => absurd h (by simp)

/-- C4: `Compose.UpdateState` succeeds exactly for the transitions
Waiting→Running, Running→Running, Running→Finished and Running→Failed;
every other request — in particular any transition into Waiting — returns
a `StateTransitionError` and leaves the compose (hence the build's queue
status) unchanged; a successful transition into Finished or Failed also
assigns that state to the status of every target of the image build. -/
theorem compose_updateState_transitions (c : Compose) (i : Nat) (s : ImageBuildState)
    (ib : ImageBuild) (hib : c.imageBuilds.get? i = some ib) :
    ((∃ c', c.updateState i s = some (none, c')) ↔
      ((ib.queueStatus = .waiting ∧ s = .running) ∨
        (ib.queueStatus = .running ∧ (s = .running ∨ s = .finished ∨ s = .failed)))) ∧
    (∀ e c₂, c.updateState i s = some (some e, c₂) → c₂ = c) ∧
    (∀ c', c.updateState i s = some (none, c') → (s = .finished ∨ s = .failed) →
      ∃ ib', c'.imageBuilds.get? i = some ib' ∧ ib'.queueStatus = s ∧
        ∀ t ∈ ib'.targets, t.status = s) := by
  have hlen : i < c.imageBuilds.length := by
    by_contra hc
    rw [List.get?_eq_none.mpr (le_of_not_lt hc)] at hib
    exact absurd hib (by simp)
  rw [List.get?_eq_getElem?] at hib
  refine ⟨?_, ?_, ?_⟩
  · cases s <;> cases hq : ib.queueStatus <;>
      simp [Compose.updateState, hib, hq]
  · intro e c₂ h
    cases s <;> cases hq : ib.queueStatus <;>
      simp [Compose.updateState, hib, hq] at h <;> exact h.2.symm
  · intro c' h hs
    rcases hs with rfl | rfl <;>
      cases hq : ib.queueStatus <;> simp [Compose.updateState, hib, hq] at h <;>
      · refine ⟨_, by rw [← h]; exact list_get?_set_self _ _ _ hlen, rfl, ?_⟩
        intro t ht
        simp at ht
        obtain ⟨t0, _, rfl⟩ := ht
        rfl

/-- C4 witness: a running build moved to Finished at a concrete compose. -/
theorem compose_updateState_transitions_witness :
    ((∃ c', composeC4.updateState 0 .finished = some (none, c')) ↔
      ((ibRunningX.queueStatus = .waiting ∧ ImageBuildState.finished = .running) ∨
        (ibRunningX.queueStatus = .running ∧
          (ImageBuildState.finished = .running ∨ ImageBuildState.finished = .finished ∨
            ImageBuildState.finished = .failed)))) ∧
    (∀ e c₂, composeC4.updateState 0 .finished = some (some e, c₂) → c₂ = composeC4) ∧
    (∀ c', composeC4.updateState 0 .finished = some (none, c') →
      (ImageBuildState.finished = .finished ∨ ImageBuildState.finished = .failed) →
      ∃ ib', c'.imageBuilds.get? 0 = some ib' ∧ ib'.queueStatus = .finished ∧
        ∀ t ∈ ib'.targets, t.status = .finished) :=
  compose_updateState_transitions composeC4 0 .finished ibRunningX rfl

/-- C1 (amended): `UpdateImageBuildInCompose` fails with `NotPendingError`
exactly when the targeted image build's queue status *is* `Waiting`; when
the build is not `Waiting`, the state transition is delegated to
`Compose.UpdateState` and its outcome (wrapped as an
`InvalidRequestError` on failure) is stored. -/
theorem updateImageBuild_notPending_guard (s : Store) (cid : UUID) (i : Nat)
    (status : ImageBuildState) (result : Option ComposeResult) (now : Nat)
    (c : Compose) (ib : ImageBuild)
    (hc : ulookup s.composes cid = some c)
    (hib : c.imageBuilds.get? i = some ib) :
    (s.updateImageBuildInCompose cid i status result now =
        some (.error (.notPending "compose has not been popped")) ↔
      ib.queueStatus = .waiting) ∧
    (ib.queueStatus ≠ .waiting → ∀ e c₂, c.updateState i status = some (some e, c₂) →
      s.updateImageBuildInCompose cid i status result now =
        some (.error (.invalidRequest ("invalid state transition: " ++ e.message)))) ∧
    (ib.queueStatus ≠ .waiting → ∀ updated, c.updateState i status = some (none, updated) →
      s.updateImageBuildInCompose cid i status result now =
        some (.ok { s with composes := uset s.composes cid (if status = .finished ∨ status = .failed then stampJobFinished updated i now else updated) })) := by
  unfold Store.updateImageBuildInCompose
  rw [hc]
  simp only [hib]
  by_cases hw : ib.queueStatus = .waiting
  · exact ⟨by rw [if_pos hw]; exact ⟨fun _ => hw, fun _ => rfl⟩,
      fun hn => absurd hw hn, fun hn => absurd hw hn⟩
  · rw [if_neg hw]
    refine ⟨⟨?_, fun h => absurd h hw⟩, ?_, ?_⟩
    · intro h
      exfalso
      rcases hcase : c.updateState i status with _ | ⟨e?, c'⟩
      · rw [hcase] at h
        exact absurd h (by simp)
      · rw [hcase] at h
        cases e? with
        | some e => simp at h
        | none => simp at h
    · intro _ e c₂ hcase
      rw [hcase]
    · intro _ updated hcase
      rw [hcase]

/-- C1 counterexample: at a concrete store whose compose exists and whose
image build 0 is `Waiting`, the call *does* fail with `NotPendingError`,
contradicting the claim that it would not. -/
theorem updateImageBuild_waiting_rejected :
    storeC1.updateImageBuildInCompose uuidNil 0 .running none 0 =
      some (.error (.notPending "compose has not been popped")) := rfl

/-- C1 witness: at a store whose build 0 is running, the guard equivalence
and the delegation hold concretely. -/
theorem updateImageBuild_notPending_guard_witness :
    (Store.updateImageBuildInCompose
          { storeC1 with composes := [(uuidNil, composeC4)] } uuidNil 0 .finished none 5 =
        some (.error (.notPending "compose has not been popped")) ↔
      ibRunningX.queueStatus = .waiting) ∧
    (ibRunningX.queueStatus ≠ .waiting → ∀ e c₂,
      composeC4.updateState 0 .finished = some (some e, c₂) →
      Store.updateImageBuildInCompose
          { storeC1 with composes := [(uuidNil, composeC4)] } uuidNil 0 .finished none 5 =
        some (.error (.invalidRequest ("invalid state transition: " ++ e.message)))) ∧
    (ibRunningX.queueStatus ≠ .waiting → ∀ updated,
      composeC4.updateState 0 .finished = some (none, updated) →
      Store.updateImageBuildInCompose
          { storeC1 with composes := [(uuidNil, composeC4)] } uuidNil 0 .finished none 5 =
        some (.ok { { storeC1 with composes := [(uuidNil, composeC4)] } with composes := uset [(uuidNil, composeC4)] uuidNil (if ImageBuildState.finished = .finished ∨ ImageBuildState.finished = .failed then stampJobFinished updated 0 5 else updated) })) :=
  updateImageBuild_notPending_guard _ uuidNil 0 .finished none 5 composeC4 ibRunningX rfl rfl

theorem tagScan_fst (chmap : List (String × Change)) (l : List String) :
    (tagScan chmap l).1 =
      ((l.map (fun c => ((alookup chmap c).getD Change.goZero).revision.getD 0)).find?
        (fun r => decide (0 < r))).getD 0 := by
  induction l with
  | nil => rfl
  | cons c rest ih =>
    simp only [tagScan, List.map_cons]
    by_cases hr : 0 < ((alookup chmap c).getD Change.goZero).revision.getD 0
    · rw [if_pos hr, List.find?_cons_of_pos _ (by simpa using hr)]
      rfl
    · rw [if_neg hr, List.find?_cons_of_neg _ (by simpa using hr)]
      cases rest with
      | nil => rfl
      | cons r2 rs =>
        rw [if_neg (by simp)]
        exact ih

/-- C2 (amended): `TagBlueprint` on a blueprint with at least one commit is
a no-op when the latest commit already has a revision; otherwise the
change record stored at the latest commit's key receives revision
`r + 1`, where `r` is the revision of the newest commit bearing a positive
revision (`r = 0`, hence revision `1`, when there is none — in particular
when no commit has a revision); a second `TagBlueprint` without an
intervening push is then a no-op.  (The claim's `max existing revision`
only matches when revisions are monotone along the commit list.  The
`hchm` hypothesis materializes the per-name changes map, as every
store-produced state does; on a state with commits but a nil changes map
the Go assignment into the nil map would panic instead.) -/
theorem tagBlueprint_eq_of_tagged (s : Store) (name : String) (bp : Blueprint)
    (hbp : alookup s.blueprints name = some bp)
    (latest : String)
    (hl : ((alookup s.blueprintsCommits name).getD []).getLast? = some latest)
    (hrev : ((alookup ((alookup s.blueprintsChanges name).getD []) latest).getD
      Change.goZero).revision ≠ none) :
    s.tagBlueprint name = (none, s) := by
  unfold Store.tagBlueprint
  simp only [hbp, hl]
  rw [if_pos hrev]

theorem tagBlueprint_eq_of_untagged (s : Store) (name : String) (bp : Blueprint)
    (hbp : alookup s.blueprints name = some bp)
    (latest : String)
    (hl : ((alookup s.blueprintsCommits name).getD []).getLast? = some latest)
    (hrev : ((alookup ((alookup s.blueprintsChanges name).getD []) latest).getD
      Change.goZero).revision = none) :
    s.tagBlueprint name = (none, { s with blueprintsChanges := aset s.blueprintsChanges name (aset ((alookup s.blueprintsChanges name).getD []) latest { (tagScan ((alookup s.blueprintsChanges name).getD []) ((alookup s.blueprintsCommits name).getD []).reverse).2 with revision := some ((tagScan ((alookup s.blueprintsChanges name).getD []) ((alookup s.blueprintsCommits name).getD []).reverse).1 + 1) }) }) := by
  unfold Store.tagBlueprint
  simp only [hbp, hl]
  rw [if_neg (by simp [hrev])]

theorem tagBlueprint_revision (s : Store) (name : String) (bp : Blueprint)
    (hbp : alookup s.blueprints name = some bp)
    (latest : String)
    (hl : ((alookup s.blueprintsCommits name).getD []).getLast? = some latest)
    (chmap : List (String × Change))
    (hchm : alookup s.blueprintsChanges name = some chmap) :
    (((alookup ((alookup s.blueprintsChanges name).getD []) latest).getD
        Change.goZero).revision ≠ none →
      s.tagBlueprint name = (none, s)) ∧
    (((alookup ((alookup s.blueprintsChanges name).getD []) latest).getD
        Change.goZero).revision = none →
      (s.tagBlueprint name).1 = none ∧
      ((alookup ((alookup (s.tagBlueprint name).2.blueprintsChanges name).getD [])
          latest).getD Change.goZero).revision =
        some (newestPositiveRev ((alookup s.blueprintsChanges name).getD [])
          ((alookup s.blueprintsCommits name).getD []) + 1) ∧
      (s.tagBlueprint name).2.tagBlueprint name = (none, (s.tagBlueprint name).2)) := by
  constructor
  · intro hrev
    exact tagBlueprint_eq_of_tagged s name bp hbp latest hl hrev
  · intro hrev
    have he := tagBlueprint_eq_of_untagged s name bp hbp latest hl hrev
    rw [he]
    refine ⟨rfl, ?_, ?_⟩
    · simp only [alookup_aset_self, Option.getD_some]
      rw [tagScan_fst]
      rfl
    · exact tagBlueprint_eq_of_tagged _ name bp (by simpa using hbp) latest
        (by simpa using hl) (by simp [alookup_aset_self])

/-- C2 counterexample: with commit revisions `[5, 2, —]` (oldest to
newest) — a state the store deserializes as-is — `TagBlueprint` assigns
revision `3` (newest positive revision `2`, plus one) to the latest
commit, not `max existing revision + 1 = 6` as the claim states. -/
theorem tagBlueprint_not_max_plus_one :
    ((alookup ((alookup (storeC2.tagBlueprint "b").2.blueprintsChanges "b").getD [])
        "c3").getD Change.goZero).revision = some 3 ∧
      (some (3 : Int) ≠ some ((5 : Int) + 1)) :=
  ⟨rfl, by decide⟩

/-- C2 witness: one untagged commit — tagging assigns revision 1 and a
second tag is a no-op. -/
theorem tagBlueprint_revision_witness :
    (((alookup ((alookup storeC2W.blueprintsChanges "b").getD []) "cw").getD
        Change.goZero).revision ≠ none →
      storeC2W.tagBlueprint "b" = (none, storeC2W)) ∧
    (((alookup ((alookup storeC2W.blueprintsChanges "b").getD []) "cw").getD
        Change.goZero).revision = none →
      (storeC2W.tagBlueprint "b").1 = none ∧
      ((alookup ((alookup (storeC2W.tagBlueprint "b").2.blueprintsChanges "b").getD [])
          "cw").getD Change.goZero).revision =
        some (newestPositiveRev ((alookup storeC2W.blueprintsChanges "b").getD [])
          ((alookup storeC2W.blueprintsCommits "b").getD []) + 1) ∧
      (storeC2W.tagBlueprint "b").2.tagBlueprint "b" =
        (none, (storeC2W.tagBlueprint "b").2)) :=
  tagBlueprint_revision storeC2W "b" bpB rfl "cw" rfl [("cw", chTagW)] rfl

/-- C3: the dependency list `Enqueue` persists is *not* the bytewise
ascending sorted set: the comparison closure of `uniqueUUIDList` declares
each of `uuidA`, `uuidB` less than the other, so the persisted order is
whatever the (randomized) map iteration produced — `[uuidB, uuidA]` sorts
to the non-ascending `[uuidA, uuidB]`, the reversed input yields a
different result, and the enqueued job stores the non-ascending list. -/
theorem uniqueUUIDList_unsorted_eval :
    uniqueUUIDList [uuidB, uuidA] = [uuidA, uuidB] ∧
    uniqueUUIDList [uuidA, uuidB] = [uuidB, uuidA] ∧
    uuidByteLE uuidA uuidB = false ∧
    goUUIDLess uuidA uuidB = true ∧
    goUUIDLess uuidB uuidA = true ∧
    (ulookup (enqueue queueC3 "test" (.json .null) [uuidB, uuidA] uuidFresh 0).2.jobs
        uuidFresh).map Job.dependencies = some [uuidA, uuidB] :=
  ⟨rfl, rfl, rfl, rfl, rfl, rfl⟩

theorem mem_dedupFO {α : Type _} [DecidableEq α] (l : List α) (a : α) :
    a ∈ dedupFO l ↔ a ∈ l := by
  induction l with
  | nil => simp [dedupFO]
  | cons x xs ih =>
    simp only [dedupFO]
    split_ifs with hx
    · rw [ih]
      constructor
      · exact fun h => List.mem_cons_of_mem x h
      · intro h
        rcases List.mem_cons.mp h with rfl | h'
        · exact hx
        · exact h'
    · simp [ih]

theorem mem_uniqueUUIDList (ids : List UUID) (d : UUID) (hd : d ∈ ids) :
    d ∈ uniqueUUIDList ids := by
  unfold uniqueUUIDList
  exact (goSortSlice_perm goUUIDLess (dedupFO ids)).mem_iff.mpr
    ((mem_dedupFO ids d).mpr hd)

theorem countFinishedJobs_isNone (q : FSJobQueue) (l : List UUID) (d : UUID)
    (hd : d ∈ l) (hmiss : ulookup q.jobs d = none) : countFinishedJobs q l = none := by
  induction l with
  | nil => simp at hd
  | cons x xs ih =>
    rcases List.mem_cons.mp hd with rfl | h
    · simp [countFinishedJobs, hmiss]
    · cases hx : ulookup q.jobs x with
      | none => simp [countFinishedJobs, hx]
      | some j => simp [countFinishedJobs, hx, ih h]

/-- C5: every failing `Enqueue` — non-serializable args, or a dependency
that does not refer to an existing job — returns `uuid.Nil` with an error,
persists nothing, and leaves the queue state (jobs, pending channels,
reverse-dependency index) exactly as it was. -/
theorem enqueue_error_no_state_change (q : FSJobQueue) (t : String) (v : GoValue)
    (deps : List UUID) (fid : UUID) (now : Nat)
    (h : jsonMarshal v = none ∨ ∃ d ∈ deps, ulookup q.jobs d = none) :
    (enqueue q t v deps fid now).1.1 = uuidNil ∧
    ((enqueue q t v deps fid now).1.2).isSome = true ∧
    (enqueue q t v deps fid now).2 = q := by
  rcases h with hm | ⟨d, hd, hmiss⟩
  · simp [enqueue, hm]
  · have hcnt : countFinishedJobs q (uniqueUUIDList deps) = none :=
      countFinishedJobs_isNone q _ d (mem_uniqueUUIDList deps d hd) hmiss
    cases hm : jsonMarshal v with
    | none => simp [enqueue, hm]
    | some aj => simp [enqueue, hm, hcnt]

/-- C5 witness: enqueueing a non-serializable value on the empty queue. -/
theorem enqueue_error_no_state_change_witness :
    (enqueue queueEmpty "t" .goChan [] uuidFresh 0).1.1 = uuidNil ∧
    ((enqueue queueEmpty "t" .goChan [] uuidFresh 0).1.2).isSome = true ∧
    (enqueue queueEmpty "t" .goChan [] uuidFresh 0).2 = queueEmpty :=
  enqueue_error_no_state_change queueEmpty "t" .goChan [] uuidFresh 0 (Or.inl rfl)

/-- C6: when a blueprint's changes map and ordered commit list disagree in
length, store construction rebuilds the commit list as the changes sorted
ascending by timestamp with semantic-version tie-break (parse failures
compare as 0.0.0), and `GetBlueprintChanges` then returns the changes in
exactly that order, oldest first. -/
theorem storeNew_commit_reconstruction (loaded st : Store) (name : String)
    (chm : List (String × Change))
    (hch : alookup loaded.blueprintsChanges name = some chm)
    (hnd : (loaded.blueprintsChanges.map Prod.fst).Nodup)
    (hkeys : (chm.map Prod.fst).Nodup)
    (hwf : ∀ p ∈ chm, p.2.commit = p.1)
    (hlen : chm.length ≠ ((alookup loaded.blueprintsCommits name).getD []).length)
    (hnew : storeNew loaded = some st) :
    st.getBlueprintChanges name = goSortSlice changeLess (chm.map Prod.snd) ∧
    List.Perm (st.getBlueprintChanges name) (chm.map Prod.snd) ∧
    (st.getBlueprintChanges name).Pairwise (fun a b => changeLess b a = false) := by
  unfold storeNew at hnew
  split_ifs at hnew with hany
  have hst := Option.some.inj hnew
  have hcommits : st.blueprintsCommits =
      normalizeBlueprintsCommits loaded.blueprintsChanges loaded.blueprintsCommits := by
    rw [← hst]
  have hchanges : st.blueprintsChanges = loaded.blueprintsChanges := by
    rw [← hst]
  have hmem := alookup_mem _ _ _ hch
  have hnorm := normalize_lookup loaded.blueprintsChanges loaded.blueprintsCommits
    name chm hmem hnd
  rw [if_pos hlen] at hnorm
  have heq : st.getBlueprintChanges name = goSortSlice changeLess (chm.map Prod.snd) := by
    unfold Store.getBlueprintChanges
    rw [hcommits, hchanges, hnorm, hch]
    simp only [Option.getD_some]
    exact rebuild_map_lookup chm hkeys hwf
  exact ⟨heq, heq ▸ goSortSlice_perm _ _,
    heq ▸ goSortSlice_sorted changeLess changeLess_asym changeLess_notLT_trans _⟩

/-- C6 witness: two same-second commits stored in scrambled map order are
reconstructed in version order and returned that way. -/
theorem storeNew_commit_reconstruction_witness :
    Store.getBlueprintChanges storeC6N "b" =
      goSortSlice changeLess ([("d2", ch2C6), ("d1", ch1C6)].map Prod.snd) ∧
    List.Perm (Store.getBlueprintChanges storeC6N "b")
      ([("d2", ch2C6), ("d1", ch1C6)].map Prod.snd) ∧
    (Store.getBlueprintChanges storeC6N "b").Pairwise
      (fun a b => changeLess b a = false) :=
  storeNew_commit_reconstruction storeC6 storeC6N "b" [("d2", ch2C6), ("d1", ch1C6)]
    rfl (by decide) (by decide) (by decide) (by decide) rfl

/-- C7: enqueuing a serializable argument with no dependencies and then
dequeuing that job type yields the same job id, and the out-argument holds
a JSON value deep-equal to the enqueued one (marshal/unmarshal round
trip). -/
theorem enqueue_dequeue_roundtrip (q : FSJobQueue) (t : String) (j : Json)
    (fid : UUID) (now now' : Nat)
    (hempty : (alookup q.pending t).getD [] = []) :
    (enqueue q t (.json j) [] fid now).1 = (fid, none) ∧
    ∃ q2, dequeue (enqueue q t (.json j) [] fid now).2 [t] now' =
      some ((fid, none, some j), q2) := by
  have he : enqueue q t (.json j) [] fid now =
      ((fid, none), { q with
        jobs := uset q.jobs fid (enqueuedJob t j fid now),
        pending := aset q.pending t (((alookup q.pending t).getD []) ++ [fid]) }) := rfl
  rw [hempty, List.nil_append] at he
  refine ⟨by rw [he], ?_⟩
  rw [he]
  have hfind : findAvailable (aset q.pending t [fid]) [t] = some (t, fid, []) := by
    unfold findAvailable
    rw [alookup_aset_self]
    rfl
  have hdeq : dequeue ({ q with
        jobs := uset q.jobs fid (enqueuedJob t j fid now),
        pending := aset q.pending t [fid] }) [t] now' =
      some ((fid, none, some j), { q with
        jobs := uset (uset q.jobs fid (enqueuedJob t j fid now)) fid
          { enqueuedJob t j fid now with status := .running, startedAt := now' },
        pending := aset (aset q.pending t [fid]) t [] }) := by
    unfold dequeue
    simp only [hfind, ulookup_uset_self]
    rfl
  exact ⟨_, hdeq⟩

/-- C7 witness: round trip of a concrete string payload on the empty
queue. -/
theorem enqueue_dequeue_roundtrip_witness :
    (enqueue queueEmpty "t" (.json (.str "x")) [] uuidFresh 0).1 = (uuidFresh, none) ∧
    ∃ q2, dequeue (enqueue queueEmpty "t" (.json (.str "x")) [] uuidFresh 0).2 ["t"] 1 =
      some ((uuidFresh, none, some (.str "x")), q2) :=
  enqueue_dequeue_roundtrip queueEmpty "t" (.str "x") uuidFresh 0 1 rfl

/-- C8: the worker façade derives the compose-level state from the queue
state as the claimed mapping: Pending ↦ Waiting, Running ↦ Running, and
Finished ↦ Finished when the unmarshaled result's `OSBuildOutput.Success`
is true, Failed otherwise. -/
theorem composeState_mapping (out : Option ComposeResult) (r : ComposeResult) :
    (composeStateFromJobStatus .pending out = some .waiting) ∧
    (composeStateFromJobStatus .running out = some .running) ∧
    (composeStateFromJobStatus .finished (some r) =
      some (if r.success then .finished else .failed)) ∧
    (∀ q id j, ulookup q.jobs id = some j → j.status = .pending →
      serverJobStatus q id = some (.waiting, j.queuedAt, j.startedAt, j.finishedAt)) ∧
    (∀ q id j, ulookup q.jobs id = some j → j.status = .running →
      serverJobStatus q id = some (.running, j.queuedAt, j.startedAt, j.finishedAt)) ∧
    (∀ q id j rj res, ulookup q.jobs id = some j → j.status = .finished →
      j.result = some rj → (decodeOSBuildJobResult rj).osbuildOutput = some res →
      serverJobStatus q id = some ((if res.success then .finished else .failed),
        j.queuedAt, j.startedAt, j.finishedAt)) := by
  refine ⟨rfl, rfl, rfl, ?_, ?_, ?_⟩
  · intro q id jj h hs
    unfold serverJobStatus fsJobStatus
    simp only [h, hs]
    rfl
  · intro q id jj h hs
    unfold serverJobStatus fsJobStatus
    simp only [h, hs]
    rfl
  · intro q id jj rj res h hs hr hout
    unfold serverJobStatus fsJobStatus
    simp only [h, hs, hr]
    rw [if_pos trivial]
    simp only [hout]
    rfl

/-- C8 witness: the mapping at a concrete finished job whose decoded
result holds `Success = true`. -/
theorem composeState_mapping_witness :
    (composeStateFromJobStatus .pending none = some .waiting) ∧
    serverJobStatus
        { jobs := [(uuidA, { jobFin uuidA with
            result := some (.obj [("osbuild_output", .obj [("success", .bool true)])]) })],
          pending := [], dependants := [] } uuidA =
      some ((if (true : Bool) then .finished else .failed), 0, 0, 0) := by
  constructor
  · exact (composeState_mapping none ⟨true⟩).1
  · exact (composeState_mapping none ⟨true⟩).2.2.2.2.2
      { jobs := [(uuidA, { jobFin uuidA with
          result := some (.obj [("osbuild_output", .obj [("success", .bool true)])]) })],
        pending := [], dependants := [] }
      uuidA
      { jobFin uuidA with
        result := some (.obj [("osbuild_output", .obj [("success", .bool true)])]) }
      (.obj [("osbuild_output", .obj [("success", .bool true)])]) ⟨true⟩ rfl rfl rfl rfl

/-- C9: store construction panics (modelled as `none`) when a loaded
compose has an empty image-build list; consequently every compose of a
successfully constructed store has at least one image build. -/
theorem storeNew_requires_imageBuilds (loaded : Store) :
    ((∃ p ∈ loaded.composes, (Prod.snd p).imageBuilds = []) → storeNew loaded = none) ∧
    (∀ st, storeNew loaded = some st →
      ∀ p ∈ st.composes, (Prod.snd p).imageBuilds ≠ []) := by
  constructor
  · intro ⟨p, hp, he⟩
    unfold storeNew
    rw [if_pos (List.any_eq_true.mpr ⟨p, hp, by simp [he]⟩)]
  · intro st hnew p hp
    unfold storeNew at hnew
    split_ifs at hnew with hany
    have hst := Option.some.inj hnew
    subst hst
    simp only [List.mem_map] at hp
    obtain ⟨p0, hp0, rfl⟩ := hp
    have hne : ¬(p0.2.imageBuilds.isEmpty = true) := by
      intro he
      exact hany (List.any_eq_true.mpr ⟨p0, hp0, he⟩)
    simp only [ne_eq]
    intro hmap
    rw [List.map_eq_nil_iff] at hmap
    exact hne (by simp [hmap])

/-- C9 witness: a state with a zero-build compose is rejected; the
normalized good state keeps its non-empty build lists. -/
theorem storeNew_requires_imageBuilds_witness :
    storeNew storeC9bad = none ∧
    ∀ p ∈ storeC9good.composes, (Prod.snd p).imageBuilds ≠ [] :=
  ⟨(storeNew_requires_imageBuilds storeC9bad).1
      ⟨(uuidNil, composeC9bad), List.mem_singleton_self _, rfl⟩,
    fun p hp => (storeNew_requires_imageBuilds storeC9good).2 storeC9good rfl p hp⟩

/-- C10: a successful `DeleteBlueprint` removes only the committed entry
and the workspace entry for that name; the change history (changes map and
commit lists) is untouched, so `GetBlueprintChange` and
`GetBlueprintChanges` still return the full pre-delete history. -/
theorem deleteBlueprint_preserves_history (s : Store) (name : String) (st' : Store)
    (h : s.deleteBlueprint name = (none, st')) :
    st'.blueprintsChanges = s.blueprintsChanges ∧
    st'.blueprintsCommits = s.blueprintsCommits ∧
    (∀ n, st'.getBlueprintChanges n = s.getBlueprintChanges n) ∧
    (∀ commit, st'.getBlueprintChange name commit = s.getBlueprintChange name commit) ∧
    st'.blueprints = adelete s.blueprints name ∧
    st'.workspace = adelete s.workspace name ∧
    st'.composes = s.composes ∧ st'.sources = s.sources := by
  unfold Store.deleteBlueprint at h
  cases hl : alookup s.blueprints name with
  | none =>
    rw [hl] at h
    simp at h
  | some bp =>
    rw [hl] at h
    simp only [Prod.mk.injEq] at h
    rw [← h.2]
    exact ⟨rfl, rfl, fun n => rfl, fun commit => rfl, rfl, rfl, rfl, rfl⟩

/-- C10 witness: deleting blueprint `b` from a store with history keeps
the history queryable. -/
theorem deleteBlueprint_preserves_history_witness :
    ({ storeC2 with blueprints := [], workspace := [] } : Store).blueprintsChanges =
        storeC2.blueprintsChanges ∧
    ({ storeC2 with blueprints := [], workspace := [] } : Store).blueprintsCommits =
        storeC2.blueprintsCommits ∧
    (∀ n, Store.getBlueprintChanges { storeC2 with blueprints := [], workspace := [] } n =
      storeC2.getBlueprintChanges n) ∧
    (∀ commit, Store.getBlueprintChange { storeC2 with blueprints := [], workspace := [] }
        "b" commit = storeC2.getBlueprintChange "b" commit) ∧
    ({ storeC2 with blueprints := [], workspace := [] } : Store).blueprints =
        adelete storeC2.blueprints "b" ∧
    ({ storeC2 with blueprints := [], workspace := [] } : Store).workspace =
        adelete storeC2.workspace "b" ∧
    ({ storeC2 with blueprints := [], workspace := [] } : Store).composes =
        storeC2.composes ∧
    ({ storeC2 with blueprints := [], workspace := [] } : Store).sources =
        storeC2.sources :=
  deleteBlueprint_preserves_history storeC2 "b"
    { storeC2 with blueprints := [], workspace := [] } rfl

end Osbuild
